import Mathlib

/-!
# Value chunk (`tsdb/chunkenc/value.go`)

A shallow embedding of the value chunk of `tsdb/chunkenc/value.go`: the chunk
with its appender, the forward iterator, and the two library readers the
iterator is built on (`bytes.Reader` and `binary.ReadUvarint` /
`binary.PutUvarint` of the Go standard library, 64-bit platform).

Conventions of the embedding:

* a byte is a `Fin 256`; a byte slice is a `List Byte` (a nil slice and an empty
  slice are both `[]`; slice capacity is not part of the state);
* `uint16` and `uint64` are `Nat` with an explicit `% 2 ^ 16`, `% 2 ^ 64`
  wherever the Go code can wrap;
* a method with a pointer receiver returns the new state next to its result;
* a Go panic is the `panic` outcome of `Result`.
-/

namespace chunkenc

/-- One byte. -/
abbrev Byte := Fin 256

/-- Conversion `byte(x)` of an unsigned integer: the low eight bits. -/
def byte (x : Nat) : Byte := ⟨x % 256, Nat.mod_lt x (by decide)⟩

/-- Error values: `io.EOF`, `io.ErrUnexpectedEOF`, the overflow error of
`encoding/binary`, and an error of the compression backend. -/
inductive error where
  | EOF
  | ErrUnexpectedEOF
  | errOverflow
  | codec
  deriving DecidableEq, Repr

/-- Constant `binary.MaxVarintLen64`. -/
def MaxVarintLen64 : Nat := 10

/-- Largest length `make([]byte, n)` accepts on a 64-bit platform (the
runtime's `maxAlloc`, `1 << 48`); a larger length panics. Running out of memory
below that bound is not modelled. -/
def maxAlloc : Nat := 2 ^ 48

/-- Outcome of a method returning `bool`: a returned value or a panic with its
message. -/
inductive Result where
  | ret (b : Bool)
  | panic (msg : String)
  deriving DecidableEq, Repr

/-! ## `bytes.Reader` -/

/-- State of `bytes.Reader`: the slice `s` and the read index `i` (the field
`prevRune`, which only `UnreadRune` reads, is left out). -/
structure Reader where
  s : List Byte
  i : Nat
  deriving DecidableEq, Repr

/-- Constructor `bytes.NewReader(b)`. -/
def NewReader (b : List Byte) : Reader := { s := b, i := 0 }

/-- The bytes not read yet, `r.s[r.i:]`. -/
def Reader.unread (r : Reader) : List Byte := r.s.drop r.i

/-- Method `(*bytes.Reader).ReadByte`: `io.EOF` at the end of the slice, else
the byte at the index, which moves on by one. -/
def Reader.ReadByte (r : Reader) : Byte × Option error × Reader :=
  if r.i ≥ r.s.length then (0, some error.EOF, r)
  else (r.s.getD r.i 0, none, { r with i := r.i + 1 })

/-- Method `(*bytes.Reader).Read(b)`: `io.EOF` (and `n = 0`) when no byte is
left, even for an empty `b`; otherwise `n = copy(b, r.s[r.i:])` bytes are
copied over the front of `b`, the index moves on by `n` and the error is nil,
also when `n < len(b)`. Returns the new contents of `b`, `n`, the error and the
reader. -/
def Reader.Read (r : Reader) (b : List Byte) : List Byte × Nat × Option error × Reader :=
  if r.i ≥ r.s.length then (b, 0, some error.EOF, r)
  else
    let n := min b.length (r.s.drop r.i).length
    ((r.s.drop r.i).take n ++ b.drop n, n, none, { r with i := r.i + n })

/-! ## `encoding/binary` varints -/

/-- Loop of `binary.PutUvarint`: `for x >= 0x80 { buf[i] = byte(x) | 0x80; x >>= 7; i++ }`
followed by `buf[i] = byte(x); return i + 1`. -/
def PutUvarint.loop (buf : List Byte) (i x : Nat) : List Byte × Nat :=
  if h : x ≥ 0x80 then
    PutUvarint.loop (buf.set i (byte ((byte x).val ||| 0x80))) (i + 1) (x >>> 7)
  else (buf.set i (byte x), i + 1)
termination_by x
decreasing_by
  simp only [Nat.shiftRight_eq_div_pow]
  exact Nat.div_lt_self (by omega) (by decide)

/-- Function `binary.PutUvarint(buf, x)` for a `uint64` `x`: the buffer after
the writes and the number of bytes written. -/
def PutUvarint (buf : List Byte) (x : Nat) : List Byte × Nat :=
  PutUvarint.loop buf 0 (x % 2 ^ 64)

/-- Loop of `binary.ReadUvarint`, `for i := 0; i < MaxVarintLen64; i++`, with
`k = MaxVarintLen64 - i` iterations left; falling out of the loop is the
overflow error. -/
def ReadUvarint.loop : Nat → Nat → Nat → Nat → Reader → Nat × Option error × Reader
  | 0, _, x, _, r => (x, some error.errOverflow, r)
  | k + 1, i, x, s, r =>
    match r.ReadByte with
    | (_, some e, r1) =>
      (x, some (if i > 0 ∧ e = error.EOF then error.ErrUnexpectedEOF else e), r1)
    | (b, none, r1) =>
      if b.val < 0x80 then
        if i = MaxVarintLen64 - 1 ∧ b.val > 1 then (x, some error.errOverflow, r1)
        else (x ||| (b.val <<< s) % 2 ^ 64, none, r1)
      else
        ReadUvarint.loop k (i + 1) (x ||| ((b.val &&& 0x7f) <<< s) % 2 ^ 64) (s + 7) r1

/-- Function `binary.ReadUvarint(r)`: the decoded `uint64`, the error and the
reader after the bytes consumed. An `io.EOF` after the first byte is reported
as `io.ErrUnexpectedEOF`. -/
def ReadUvarint (r : Reader) : Nat × Option error × Reader :=
  ReadUvarint.loop MaxVarintLen64 0 0 0 r

/-! ## The compression backend -/

/-- The zstd streams as the chunk uses them. `compress b` is what ends up in the
output buffer after `zstd.NewWriter`, `io.Copy` and `Close`, with the first
error of the three; `decompress b` is what `io.Copy` drains from
`zstd.NewReader`, with its error. A stream of zero bytes holds no frame, so it
decodes to zero bytes. -/
structure Codec where
  compress : List Byte → List Byte × Option error
  decompress : List Byte → List Byte × Option error
  decompress_nil : (decompress []).1 = []

/-! ## The chunk and its appender -/

/-- Struct `valueChunk`. -/
structure valueChunk where
  compressed : List Byte
  b : List Byte
  num : Nat
  deriving DecidableEq, Repr

/-- Constructor `newValueChunk()`. -/
def newValueChunk : valueChunk := { compressed := [], b := [], num := 0 }

/-- Method `Bytes()`: the compressed working buffer; the three errors of the
backend are dropped. -/
def valueChunk.Bytes (codec : Codec) (c : valueChunk) : List Byte :=
  (codec.compress c.b).1

/-- Method `NumSamples()`. -/
def valueChunk.NumSamples (c : valueChunk) : Nat := c.num

/-- Builtin `copy(dst, src)`: the new contents of `dst` and the number of bytes
copied, the smaller of the two lengths. -/
def copy (dst src : List Byte) : List Byte × Nat :=
  let n := min dst.length src.length
  (src.take n ++ dst.drop n, n)

/-- Method `Compact()`. The capacity `cap(c.b)` is passed next to the chunk and
returned with it; `threshold` is the package constant
`chunkCompactCapacityThreshold`, which is declared outside `value.go`. -/
def valueChunk.Compact (threshold : Nat) (c : valueChunk) (cap : Nat) : valueChunk × Nat :=
  let l := c.b.length
  if cap > l + threshold then
    let buf := List.replicate l (0 : Byte)
    let buf := (copy buf c.b).1
    ({ c with b := buf }, l)
  else (c, cap)

/-- Method `valueAppender.Append(_, v)` on the chunk the appender is bound to. -/
def Append (c : valueChunk) (_t : Int) (v : List Byte) : valueChunk :=
  let v := if v.length = 0 then [(0x20 : Byte)] else v
  let buf := List.replicate MaxVarintLen64 (0 : Byte)
  let p := PutUvarint buf v.length
  let size := p.1.take p.2
  { c with b := (c.b ++ size) ++ v, num := (c.num + 1) % 2 ^ 16 }

/-- One `Append` call per entry of `vs`, in order (timestamp 0 for each). -/
def appendAll (c : valueChunk) (vs : List (List Byte)) : valueChunk :=
  vs.foldl (fun c v => Append c 0 v) c

/-! ## The iterator -/

/-- Struct `valueIterator`. -/
structure valueIterator where
  br : Reader
  numTotal : Nat
  err : Option error
  v : List Byte
  numRead : Nat
  deriving DecidableEq, Repr

/-- Method `valueChunk.Iterator(it)`: an iterator passed in for reuse is
returned as it is; otherwise the compressed buffer is decompressed into an
empty working buffer first, and a new iterator over the working buffer is
returned. Returns the iterator and the chunk after the call. -/
def valueChunk.Iterator (codec : Codec) (c : valueChunk) (it : Option valueIterator) :
    valueIterator × valueChunk :=
  match it with
  | some valueIter => (valueIter, c)
  | none =>
    let c :=
      if c.b.length = 0 ∧ c.compressed.length ≠ 0 then
        { c with b := (codec.decompress c.compressed).1, compressed := [] }
      else c
    ({ br := NewReader c.b, numTotal := c.num, err := none, v := [], numRead := 0 }, c)

/-- Method `valueIterator.Next()`: false at once when an error is stored or all
samples are read; else the length is read with `binary.ReadUvarint`,
`it.v = make([]byte, sampleLen)` is allocated (a panic above `maxAlloc`) and
filled by one `it.br.Read(it.v)`, of which only the error is looked at; the
single byte `0x20` becomes nil; `numRead` is a `uint16`. -/
def valueIterator.Next (it : valueIterator) : Result × valueIterator :=
  if it.err ≠ none ∨ it.numRead = it.numTotal then (Result.ret false, it)
  else
    match ReadUvarint it.br with
    | (_, some e, br1) => (Result.ret false, { it with br := br1, err := some e })
    | (sampleLen, none, br1) =>
      if sampleLen > maxAlloc then
        (Result.panic "runtime error: makeslice: len out of range", { it with br := br1 })
      else
        match br1.Read (List.replicate sampleLen 0) with
        | (v, _, some e, br2) => (Result.ret false, { it with br := br2, v := v, err := some e })
        | (v, _, none, br2) =>
          let v := if v = [(0x20 : Byte)] then [] else v
          (Result.ret true, { it with br := br2, v := v, numRead := (it.numRead + 1) % 2 ^ 16 })

/-- Method `valueIterator.Seek(_)`: `panic("implement me")`. -/
def valueIterator.Seek (it : valueIterator) (_t : Int) : Result × valueIterator :=
  (Result.panic "implement me", it)

/-- Method `valueIterator.At()`. -/
def valueIterator.At (it : valueIterator) : Int × List Byte := (0, it.v)

/-- Method `valueIterator.Err()`. -/
def valueIterator.Err (it : valueIterator) : Option error := it.err

/-- The consumer loop `for it.Next() { _, v := it.At(); ... }`, at most `fuel`
calls of `Next`: the values seen, the outcome of the `Next` call that ended the
loop (`none` when the calls ran out first) and the iterator at the end. -/
def drain : Nat → valueIterator → List (List Byte) × Option Result × valueIterator
  | 0, it => ([], none, it)
  | fuel + 1, it =>
    match it.Next with
    | (Result.ret true, it1) =>
      let r := drain fuel it1
      (it1.At.2 :: r.1, r.2.1, r.2.2)
    | (res, it1) => ([], some res, it1)

/-- The iterator after `k` calls of `Next` that all returned true (`none` when
one of them did not). -/
def nextTimes : Nat → valueIterator → Option valueIterator
  | 0, it => some it
  | k + 1, it =>
    match it.Next with
    | (Result.ret true, it1) => nextTimes k it1
    | _ => none

/-- The call `c.Iterator(nil)` followed by the consumer loop. -/
def iterate (codec : Codec) (c : valueChunk) (fuel : Nat) :
    List (List Byte) × Option Result × valueIterator :=
  drain fuel (c.Iterator codec none).1

/-- A backend that stores the payload as it is. -/
def idCodec : Codec :=
  { compress := fun b => (b, none), decompress := fun b => (b, none), decompress_nil := rfl }

/-- A backend whose decoder fails on a stream cut short: it yields the payload
without its last byte and reports an error. -/
def truncatingCodec : Codec :=
  { compress := fun b => (b, none),
    decompress := fun b => (b.dropLast, some error.codec),
    decompress_nil := rfl }

/-- The slice `size` of `Append` for a value of length `L`: the front of the
scratch buffer that `binary.PutUvarint` has written. -/
def lengthPrefix (L : Nat) : List Byte :=
  let p := PutUvarint (List.replicate MaxVarintLen64 (0 : Byte)) L
  p.1.take p.2

/-- The calls `it.Next()` made `n` times in a row, whatever each returns: the
iterator afterwards and how many of the calls returned true. -/
def callNext : Nat → valueIterator → valueIterator × Nat
  | 0, it => (it, 0)
  | n + 1, it =>
    let r := it.Next
    let s := callNext n r.2
    (s.1, (if r.1 = Result.ret true then 1 else 0) + s.2)

/-- The call `it.Next()` stops on a decode failure: it gets past the guard on
the error and the count, and returns false. -/
def stopsOnDecodeFailure (it : valueIterator) : Bool :=
  decide (it.err = none ∧ it.numRead ≠ it.numTotal ∧ it.Next.1 = Result.ret false)

/-! ## Reference definitions for the statements -/

/-- Base-128 continuation encoding of `n`: seven bits per byte, least
significant group first, the high bit set on every byte but the last. -/
def uvarint (n : Nat) : List Byte :=
  if h : n < 128 then [byte n] else byte (n % 128 + 128) :: uvarint (n / 128)
termination_by n
decreasing_by exact Nat.div_lt_self (by omega) (by decide)

/-- The value `Append` frames: the single byte `0x20` in place of an empty
value. -/
def framed (v : List Byte) : List Byte := if v = [] then [(0x20 : Byte)] else v

/-- One record of the wire format: the length prefix, then the bytes. -/
def record (v : List Byte) : List Byte := uvarint (framed v).length ++ framed v

/-- The records of a list of values, in order. -/
def records (vs : List (List Byte)) : List Byte := (vs.map record).flatten

/-- What iteration gives back for an appended value: the value itself, or the
empty value for the single byte `0x20`. -/
def delivered (v : List Byte) : List Byte := if v = [(0x20 : Byte)] then [] else v

/-- Number a byte sequence stands for as an unsigned varint: seven payload bits
per byte, least significant group first. -/
def varintValue : List Byte → Nat
  | [] => 0
  | b :: t => b.val % 128 + 128 * varintValue t

/-- A byte sequence is one well-formed unsigned varint of 64 bits: at most ten
bytes, the high bit set on every byte but the last and clear on the last, and
a tenth byte of at most 1. -/
def wellFormedUvarint (p : List Byte) : Bool :=
  match p.getLast? with
  | none => false
  | some last =>
    decide (p.length ≤ MaxVarintLen64) && p.dropLast.all (fun b => decide (128 ≤ b.val)) &&
      decide (last.val < 128) && (decide (p.length < MaxVarintLen64) || decide (last.val ≤ 1))

/-! ## Varint encoding: the loop against the reference -/

theorem uvarint_small (n : Nat) (h : n < 128) : uvarint n = [byte n] := by
  rw [uvarint]; simp [h]

theorem uvarint_large (n : Nat) (h : 128 ≤ n) :
    uvarint n = byte (n % 128 + 128) :: uvarint (n / 128) := by
  rw [uvarint]; simp [Nat.not_lt.mpr h]

theorem uvarint_length_pos (n : Nat) : 0 < (uvarint n).length := by
  by_cases h : n < 128
  · simp [uvarint_small n h]
  · simp [uvarint_large n (Nat.le_of_not_lt h)]

theorem uvarint_length_le (k : Nat) : ∀ n, n < 2 ^ (7 * (k + 1)) → (uvarint n).length ≤ k + 1 := by
  induction k with
  | zero =>
    intro n hn
    have h : n < 128 := by simpa using hn
    simp [uvarint_small n h]
  | succ k ih =>
    intro n hn
    by_cases h : n < 128
    · simp [uvarint_small n h]
    · have h128 : 128 ≤ n := Nat.le_of_not_lt h
      rw [uvarint_large n h128]
      have hdiv : n / 128 < 2 ^ (7 * (k + 1)) := by
        rw [Nat.div_lt_iff_lt_mul (by decide)]
        have : 2 ^ (7 * (k + 1 + 1)) = 2 ^ (7 * (k + 1)) * 128 := by
          rw [show 7 * (k + 1 + 1) = 7 * (k + 1) + 7 by ring, pow_add]
          norm_num
        omega
      have := ih (n / 128) hdiv
      simp only [List.length_cons]
      omega

theorem uvarint_length_le_ten (n : Nat) (h : n < 2 ^ 64) : (uvarint n).length ≤ 10 := by
  apply uvarint_length_le 9 n
  exact Nat.lt_of_lt_of_le h (by decide)

set_option maxRecDepth 100000 in
theorem lor_high_bit (y : Nat) (h : y < 256) : y ||| 128 = y % 128 + 128 := by
  revert h; revert y; decide

theorem byte_lor_high (x : Nat) : byte ((byte x).val ||| 0x80) = byte (x % 128 + 128) := by
  have h : (byte x).val = x % 256 := rfl
  rw [h, lor_high_bit (x % 256) (Nat.mod_lt _ (by decide))]
  congr 1
  omega

theorem take_set_succ (buf : List Byte) (i : Nat) (b : Byte) (h : i < buf.length) :
    (buf.set i b).take (i + 1) = buf.take i ++ [b] := by
  rw [List.take_succ, List.set_take, List.set_eq_of_length_le (List.length_take_le i buf)]
  simp [h]

theorem PutUvarint_loop_spec (x : Nat) : ∀ (buf : List Byte) (i : Nat),
    i + (uvarint x).length ≤ buf.length →
    (PutUvarint.loop buf i x).2 = i + (uvarint x).length ∧
    (PutUvarint.loop buf i x).1.take (i + (uvarint x).length) = buf.take i ++ uvarint x := by
  induction x using Nat.strong_induction_on with
  | _ x ih =>
    intro buf i hlen
    rw [PutUvarint.loop]
    by_cases h : x ≥ 0x80
    · have h128 : 128 ≤ x := h
      rw [uvarint_large x h128] at hlen ⊢
      simp only [List.length_cons] at hlen ⊢
      rw [dif_pos h, byte_lor_high]
      have hlt : x >>> 7 < x := by
        simp only [Nat.shiftRight_eq_div_pow]
        exact Nat.div_lt_self (by omega) (by decide)
      have hsh : x >>> 7 = x / 128 := by simp [Nat.shiftRight_eq_div_pow]
      have hi : i < buf.length := by omega
      have := ih (x >>> 7) hlt (buf.set i (byte (x % 128 + 128))) (i + 1)
        (by rw [hsh, List.length_set]; omega)
      rw [hsh] at this ⊢
      refine ⟨by rw [this.1]; omega, ?_⟩
      rw [show i + ((uvarint (x / 128)).length + 1) = i + 1 + (uvarint (x / 128)).length by omega,
        this.2, take_set_succ buf i _ hi]
      simp
    · have hs : x < 128 := Nat.lt_of_not_le h
      rw [uvarint_small x hs] at hlen ⊢
      simp only [List.length_cons, List.length_nil] at hlen ⊢
      rw [dif_neg h]
      exact ⟨rfl, take_set_succ buf i _ (by omega)⟩

theorem PutUvarint_spec (buf : List Byte) (x : Nat) (hbuf : buf.length = MaxVarintLen64)
    (hx : x < 2 ^ 64) :
    (PutUvarint buf x).1.take (PutUvarint buf x).2 = uvarint x := by
  have hlen := uvarint_length_le_ten x hx
  have h := PutUvarint_loop_spec x buf 0 (by rw [hbuf]; simpa [MaxVarintLen64] using hlen)
  unfold PutUvarint
  rw [Nat.mod_eq_of_lt hx, h.1, h.2]
  simp

/-! ## The reader -/

theorem unread_cons (r : Reader) (b : Byte) (t : List Byte) (h : r.unread = b :: t) :
    r.i < r.s.length ∧ r.s.getD r.i 0 = b ∧ ({ r with i := r.i + 1 } : Reader).unread = t := by
  unfold Reader.unread at h ⊢
  have hlt : r.i < r.s.length := by
    by_contra hge
    rw [List.drop_eq_nil_of_le (Nat.le_of_not_lt hge)] at h
    exact List.noConfusion h
  rw [List.drop_eq_getElem_cons hlt] at h
  injection h with h1 h2
  refine ⟨hlt, ?_, h2⟩
  rw [List.getD_eq_getElem _ _ hlt]
  exact h1

theorem ReadByte_cons (r : Reader) (b : Byte) (t : List Byte) (h : r.unread = b :: t) :
    r.ReadByte = (b, none, { r with i := r.i + 1 }) := by
  obtain ⟨hlt, hb, -⟩ := unread_cons r b t h
  unfold Reader.ReadByte
  rw [if_neg (Nat.not_le.mpr hlt), hb]

theorem ReadByte_nil (r : Reader) (h : r.unread = []) :
    r.ReadByte = (0, some error.EOF, r) := by
  unfold Reader.unread at h
  unfold Reader.ReadByte
  rw [if_pos (List.drop_eq_nil_iff.mp h)]

theorem unread_advance (r : Reader) (pre rest : List Byte) (h : r.unread = pre ++ rest) :
    ({ r with i := r.i + pre.length } : Reader).unread = rest := by
  unfold Reader.unread at h ⊢
  show List.drop (r.i + pre.length) r.s = rest
  rw [← List.drop_drop, h, List.drop_left]

/-! ## Varint decoding -/

theorem lor_shift (x y s : Nat) (hx : x < 2 ^ s) (hy : y * 2 ^ s < 2 ^ 64) :
    x ||| (y <<< s) % 2 ^ 64 = x + y * 2 ^ s := by
  rw [Nat.shiftLeft_eq, Nat.mod_eq_of_lt hy, Nat.or_comm, Nat.mul_comm,
    ← Nat.mul_add_lt_is_or hx, Nat.add_comm]

theorem byte_val_of_lt (n : Nat) (h : n < 256) : (byte n).val = n := Nat.mod_eq_of_lt h

theorem land_low_bits (n : Nat) : n &&& 0x7f = n % 128 :=
  Nat.and_pow_two_sub_one_eq_mod n 7

theorem wellFormedUvarint_split (p : List Byte) (h : wellFormedUvarint p = true) :
    ∃ init last, p = init ++ [last] ∧ (∀ b ∈ init, 128 ≤ b.val) ∧ last.val < 128 ∧
      init.length ≤ 9 ∧ (init.length = 9 → last.val ≤ 1) := by
  unfold wellFormedUvarint at h
  cases hl : p.getLast? with
  | none => rw [hl] at h; exact absurd h (by simp)
  | some last =>
    rw [hl] at h
    have hp : p.dropLast ++ [last] = p := List.dropLast_append_getLast? last (by simp [hl])
    simp only [Bool.and_eq_true, Bool.or_eq_true, decide_eq_true_eq, List.all_eq_true,
      MaxVarintLen64] at h
    obtain ⟨⟨⟨h1, h2⟩, h3⟩, h4⟩ := h
    have hlen : p.length = p.dropLast.length + 1 := by
      conv_lhs => rw [← hp]
      simp
    refine ⟨p.dropLast, last, hp.symm, h2, h3, by omega, fun h9 => ?_⟩
    rcases h4 with h4 | h4
    · omega
    · exact h4

theorem wellFormedUvarint_join (init : List Byte) (last : Byte) (h1 : ∀ b ∈ init, 128 ≤ b.val)
    (h2 : last.val < 128) (h3 : init.length ≤ 9) (h4 : init.length = 9 → last.val ≤ 1) :
    wellFormedUvarint (init ++ [last]) = true := by
  unfold wellFormedUvarint
  rw [List.getLast?_concat]
  simp only [Bool.and_eq_true, Bool.or_eq_true, decide_eq_true_eq, List.all_eq_true,
    MaxVarintLen64, List.dropLast_concat, List.length_append, List.length_singleton]
  refine ⟨⟨⟨by omega, h1⟩, h2⟩, ?_⟩
  by_cases h9 : init.length = 9
  · exact Or.inr (h4 h9)
  · exact Or.inl (by omega)

theorem ReadUvarint_loop_wellFormed : ∀ (init : List Byte) (k i x s : Nat) (r : Reader)
    (last : Byte) (rest : List Byte),
    r.unread = init ++ last :: rest → (∀ b ∈ init, 128 ≤ b.val) → last.val < 128 →
    i + (k + 1) = MaxVarintLen64 → init.length ≤ k → (init.length = k → last.val ≤ 1) →
    s = 7 * i → x < 2 ^ s →
    ReadUvarint.loop (k + 1) i x s r =
      (x + varintValue (init ++ [last]) * 2 ^ s, none, { r with i := r.i + (init.length + 1) }) := by
  intro init
  induction init with
  | nil =>
    intro k i x s r last rest hun _ hlast hik _ hk hs hx
    have hrb := ReadByte_cons r last rest hun
    have hi : i + k = 9 := by simp [MaxVarintLen64] at hik; omega
    have hbound : last.val * 2 ^ s < 2 ^ 64 := by
      by_cases hk0 : k = 0
      · have h1 : last.val ≤ 1 := hk (by simp [hk0])
        have hs63 : s = 63 := by omega
        subst hs63
        calc last.val * 2 ^ 63 ≤ 1 * 2 ^ 63 := Nat.mul_le_mul_right _ h1
          _ < 2 ^ 64 := by norm_num
      · calc last.val * 2 ^ s < 2 ^ 7 * 2 ^ s := Nat.mul_lt_mul_of_pos_right hlast (by positivity)
          _ = 2 ^ (7 + s) := by rw [pow_add]
          _ ≤ 2 ^ 64 := Nat.pow_le_pow_right (by decide) (by omega)
    rw [ReadUvarint.loop]
    simp only [hrb]
    rw [if_pos hlast, if_neg, lor_shift x last.val s hx hbound]
    · simp [varintValue, Nat.mod_eq_of_lt hlast]
    · rintro ⟨h9, hgt⟩
      have : k = 0 := by simp [MaxVarintLen64] at h9; omega
      have := hk (by simp [this])
      omega
  | cons b init ih =>
    intro k i x s r last rest hun hinit hlast hik hlen hk hs hx
    have hrb := ReadByte_cons r b (init ++ last :: rest) hun
    have hun1 := (unread_cons r _ _ hun).2.2
    have hb : 128 ≤ b.val := hinit b (List.mem_cons_self _ _)
    obtain ⟨k, rfl⟩ : ∃ k1, k = k1 + 1 := ⟨k - 1, by simp at hlen; omega⟩
    have hi : i + k = 8 := by simp [MaxVarintLen64] at hik; omega
    have hbound : b.val % 128 * 2 ^ s < 2 ^ 64 := by
      calc b.val % 128 * 2 ^ s < 2 ^ 7 * 2 ^ s :=
            Nat.mul_lt_mul_of_pos_right (Nat.mod_lt _ (by decide)) (by positivity)
        _ = 2 ^ (7 + s) := by rw [pow_add]
        _ ≤ 2 ^ 64 := Nat.pow_le_pow_right (by decide) (by omega)
    have h2 : 2 ^ (s + 7) = 128 * 2 ^ s := by rw [pow_add]; ring
    have hx1 : x + b.val % 128 * 2 ^ s < 2 ^ (s + 7) := by
      have h1 : b.val % 128 * 2 ^ s ≤ 127 * 2 ^ s :=
        Nat.mul_le_mul_right _ (by have := Nat.mod_lt b.val (show 0 < 128 by decide); omega)
      omega
    rw [ReadUvarint.loop]
    simp only [hrb]
    rw [if_neg (by omega), land_low_bits, lor_shift x (b.val % 128) s hx hbound,
      ih k (i + 1) (x + b.val % 128 * 2 ^ s) (s + 7) _ last rest hun1
        (fun c hc => hinit c (List.mem_cons_of_mem _ hc)) hlast
        (by simp [MaxVarintLen64]; omega) (by simp at hlen; omega)
        (fun h => hk (by simp [h])) (by omega) hx1]
    have hsum : x + b.val % 128 * 2 ^ s + varintValue (init ++ [last]) * 2 ^ (s + 7) =
        x + varintValue (b :: init ++ [last]) * 2 ^ s := by
      rw [h2]
      show _ = x + (b.val % 128 + 128 * varintValue (init ++ [last])) * 2 ^ s
      ring
    simp only [List.length_cons, hsum]
    congr 3
    omega

theorem ReadUvarint_wellFormed (r : Reader) (p rest : List Byte)
    (hun : r.unread = p ++ rest) (hp : wellFormedUvarint p = true) :
    ReadUvarint r = (varintValue p, none, { r with i := r.i + p.length }) := by
  obtain ⟨init, last, rfl, h1, h2, h3, h4⟩ := wellFormedUvarint_split p hp
  unfold ReadUvarint
  have h := ReadUvarint_loop_wellFormed init 9 0 0 0 r last rest (by simpa using hun) h1 h2
    rfl h3 h4 rfl (by decide)
  simpa [MaxVarintLen64] using h

theorem ReadUvarint_loop_ok : ∀ (k i x s : Nat) (r : Reader), i + k = MaxVarintLen64 →
    (ReadUvarint.loop k i x s r).2.1 = none →
    ∃ init last rest, r.unread = init ++ last :: rest ∧ (∀ b ∈ init, 128 ≤ b.val) ∧
      last.val < 128 ∧ init.length + 1 ≤ k ∧ (init.length + 1 = k → last.val ≤ 1) := by
  intro k
  induction k with
  | zero =>
    intro i x s r _ h
    simp [ReadUvarint.loop] at h
  | succ k ih =>
    intro i x s r hik h
    cases hun : r.unread with
    | nil =>
      rw [ReadUvarint.loop] at h
      simp [ReadByte_nil r hun] at h
    | cons b t =>
      have hrb := ReadByte_cons r b t hun
      have hun1 := (unread_cons r b t hun).2.2
      rw [ReadUvarint.loop] at h
      simp only [hrb] at h
      by_cases hb : b.val < 0x80
      · rw [if_pos hb] at h
        by_cases h9 : i = MaxVarintLen64 - 1 ∧ b.val > 1
        · rw [if_pos h9] at h
          simp at h
        · refine ⟨[], b, t, rfl, by simp, hb, by simp, fun hk => ?_⟩
          have hi9 : i = MaxVarintLen64 - 1 := by simp at hk; omega
          by_contra hgt
          exact h9 ⟨hi9, by omega⟩
      · rw [if_neg hb] at h
        obtain ⟨init, last, rest, e, hinit, hlast, hlen, hk⟩ :=
          ih (i + 1) _ (s + 7) _ (by omega) h
        refine ⟨b :: init, last, rest, ?_, ?_, hlast, by simp; omega, fun hk1 => hk (by simp at hk1; omega)⟩
        · rw [hun1] at e
          rw [e, List.cons_append]
        · intro c hc
          rcases List.mem_cons.mp hc with rfl | hc
          · simp only [Nat.not_lt] at hb; exact hb
          · exact hinit c hc

theorem ReadUvarint_error_of_malformed (r : Reader)
    (h : ∀ p rest, r.unread = p ++ rest → wellFormedUvarint p = false) :
    ∃ e, (ReadUvarint r).2.1 = some e := by
  cases hres : (ReadUvarint r).2.1 with
  | some e => exact ⟨e, rfl⟩
  | none =>
    exfalso
    unfold ReadUvarint at hres
    obtain ⟨init, last, rest, e, hinit, hlast, hlen, hk⟩ :=
      ReadUvarint_loop_ok MaxVarintLen64 0 0 0 r (by simp) hres
    have hwf := wellFormedUvarint_join init last hinit hlast
      (by simp [MaxVarintLen64] at hlen; omega) (fun h9 => hk (by simp [MaxVarintLen64, h9]))
    have := h (init ++ [last]) rest (by simp [e])
    rw [hwf] at this
    exact Bool.noConfusion this

/-! ## The encoding of a length is a well-formed varint -/

theorem uvarint_shape : ∀ (k m : Nat), m < 2 ^ (7 * k + 1) →
    ∃ init last, uvarint m = init ++ [last] ∧ (∀ b ∈ init, 128 ≤ b.val) ∧ last.val < 128 ∧
      init.length ≤ k ∧ (init.length = k → last.val ≤ 1) ∧ varintValue (uvarint m) = m := by
  intro k
  induction k with
  | zero =>
    intro m hm
    have hm1 : m < 2 := by simpa using hm
    have hval : (byte m).val = m := byte_val_of_lt m (by omega)
    refine ⟨[], byte m, by simp [uvarint_small m (by omega)], by simp, by omega, by simp,
      fun _ => by omega, ?_⟩
    rw [uvarint_small m (by omega)]
    simp only [varintValue, hval]
    omega
  | succ k ih =>
    intro m hm
    by_cases hsmall : m < 128
    · have hval : (byte m).val = m := byte_val_of_lt m (by omega)
      refine ⟨[], byte m, by simp [uvarint_small m hsmall], by simp, by omega, by simp,
        fun h => by simp at h, ?_⟩
      rw [uvarint_small m hsmall]
      simp only [varintValue, hval]
      omega
    · have hlarge : 128 ≤ m := Nat.le_of_not_lt hsmall
      have hval : (byte (m % 128 + 128)).val = m % 128 + 128 := byte_val_of_lt _ (by omega)
      have hm1 : m / 128 < 2 ^ (7 * k + 1) := by
        rw [Nat.div_lt_iff_lt_mul (by decide)]
        have : 2 ^ (7 * (k + 1) + 1) = 2 ^ (7 * k + 1) * 128 := by
          rw [show 7 * (k + 1) + 1 = 7 * k + 1 + 7 by ring, pow_add]
          norm_num
        omega
      obtain ⟨init, last, e, hinit, hlast, hlen, hk, hv⟩ := ih (m / 128) hm1
      refine ⟨byte (m % 128 + 128) :: init, last, by rw [uvarint_large m hlarge, e]; rfl, ?_,
        hlast, by simp; omega, fun h => hk (by simp at h; omega), ?_⟩
      · intro c hc
        rcases List.mem_cons.mp hc with rfl | hc
        · omega
        · exact hinit c hc
      · rw [uvarint_large m hlarge]
        simp only [varintValue, hval, hv]
        omega

theorem uvarint_wellFormed (m : Nat) (hm : m < 2 ^ 64) : wellFormedUvarint (uvarint m) = true := by
  obtain ⟨init, last, e, hinit, hlast, hlen, hk, -⟩ := uvarint_shape 9 m (by simpa using hm)
  rw [e]
  exact wellFormedUvarint_join init last hinit hlast hlen hk

theorem varintValue_uvarint (m : Nat) (hm : m < 2 ^ 64) : varintValue (uvarint m) = m := by
  obtain ⟨_, _, _, _, _, _, _, hv⟩ := uvarint_shape 9 m (by simpa using hm)
  exact hv

/-! ## One step of the iterator -/

theorem Read_full (r : Reader) (body rest : List Byte) (hun : r.unread = body ++ rest)
    (hne : body ≠ [] ∨ rest ≠ []) :
    r.Read (List.replicate body.length 0) =
      (body, body.length, none, { r with i := r.i + body.length }) := by
  unfold Reader.unread at hun
  have hlt : ¬ r.i ≥ r.s.length := by
    intro hge
    rw [List.drop_eq_nil_of_le hge] at hun
    have hnil := List.append_eq_nil.mp hun.symm
    rcases hne with h | h
    · exact h hnil.1
    · exact h hnil.2
  unfold Reader.Read
  rw [if_neg hlt, hun]
  simp

theorem Read_eof (r : Reader) (b : List Byte) (hun : r.unread = []) :
    r.Read b = (b, 0, some error.EOF, r) := by
  unfold Reader.unread at hun
  unfold Reader.Read
  rw [if_pos (List.drop_eq_nil_iff.mp hun)]

theorem Next_record (it : valueIterator) (p body rest : List Byte)
    (herr : it.err = none) (hrem : it.numRead ≠ it.numTotal)
    (hun : it.br.unread = p ++ (body ++ rest)) (hp : wellFormedUvarint p = true)
    (hL : varintValue p = body.length) (hmax : body.length ≤ maxAlloc)
    (hne : body ≠ [] ∨ rest ≠ []) :
    it.Next = (Result.ret true,
      { it with
        br := { it.br with i := it.br.i + p.length + body.length }
        v := delivered body
        numRead := (it.numRead + 1) % 2 ^ 16 }) := by
  have hru := ReadUvarint_wellFormed it.br p (body ++ rest) hun hp
  have hun1 := unread_advance it.br p (body ++ rest) hun
  have hrd := Read_full _ body rest hun1 hne
  unfold valueIterator.Next
  rw [if_neg (by simp [herr, hrem])]
  simp only [hru, hL]
  rw [if_neg (Nat.not_lt.mpr hmax)]
  simp only [hrd]
  rfl

theorem Next_stopped (it : valueIterator) (h : it.err ≠ none ∨ it.numRead = it.numTotal) :
    it.Next = (Result.ret false, it) := by
  unfold valueIterator.Next
  rw [if_pos h]

/-! ## Appending -/

theorem framed_ne_nil (v : List Byte) : framed v ≠ [] := by
  unfold framed
  by_cases h : v = []
  · simp [h]
  · simp [h]

theorem framed_length_le (v : List Byte) (n : Nat) (h1 : 1 ≤ n) (hv : v.length ≤ n) :
    (framed v).length ≤ n := by
  unfold framed
  by_cases h : v = []
  · simp [h]; exact h1
  · simp [h]; exact hv

theorem delivered_framed (v : List Byte) : delivered (framed v) = delivered v := by
  unfold framed
  by_cases h : v = []
  · subst h; simp [delivered]
  · simp [h]

theorem Append_b (c : valueChunk) (t : Int) (v : List Byte) (hv : v.length < 2 ^ 64) :
    (Append c t v).b = c.b ++ record v := by
  have hf : (if v.length = 0 then [(0x20 : Byte)] else v) = framed v := by
    unfold framed
    by_cases h : v = []
    · simp [h]
    · simp [h]
  have hlen : (framed v).length < 2 ^ 64 := by
    rw [← hf]
    by_cases h : v.length = 0
    · rw [if_pos h]; decide
    · rw [if_neg h]; exact hv
  unfold Append record
  simp only [hf]
  rw [PutUvarint_spec _ _ (by simp) hlen, List.append_assoc]

theorem Append_num (c : valueChunk) (t : Int) (v : List Byte) :
    (Append c t v).num = (c.num + 1) % 2 ^ 16 := rfl

theorem Append_compressed (c : valueChunk) (t : Int) (v : List Byte) :
    (Append c t v).compressed = c.compressed := rfl

theorem records_cons (v : List Byte) (vs : List (List Byte)) :
    records (v :: vs) = record v ++ records vs := by
  simp [records]

theorem records_append (vs ws : List (List Byte)) :
    records (vs ++ ws) = records vs ++ records ws := by
  simp [records]

theorem appendAll_b : ∀ (vs : List (List Byte)) (c : valueChunk),
    (∀ v ∈ vs, v.length < 2 ^ 64) → (appendAll c vs).b = c.b ++ records vs := by
  intro vs
  induction vs with
  | nil => intro c _; simp [appendAll, records]
  | cons v vs ih =>
    intro c h
    have h1 := ih (Append c 0 v) (fun w hw => h w (List.mem_cons_of_mem _ hw))
    unfold appendAll at h1 ⊢
    rw [List.foldl_cons, h1, Append_b c 0 v (h v (List.mem_cons_self _ _)), records_cons,
      List.append_assoc]

theorem appendAll_num : ∀ (vs : List (List Byte)) (c : valueChunk), c.num < 2 ^ 16 →
    (appendAll c vs).num = (c.num + vs.length) % 2 ^ 16 := by
  intro vs
  induction vs with
  | nil =>
    intro c h
    show c.num = (c.num + 0) % 2 ^ 16
    rw [Nat.add_zero, Nat.mod_eq_of_lt h]
  | cons v vs ih =>
    intro c _
    have h1 := ih (Append c 0 v) (by rw [Append_num]; exact Nat.mod_lt _ (by decide))
    unfold appendAll at h1 ⊢
    rw [List.foldl_cons, h1, Append_num, List.length_cons]
    omega

theorem appendAll_compressed : ∀ (vs : List (List Byte)) (c : valueChunk),
    (appendAll c vs).compressed = c.compressed := by
  intro vs
  induction vs with
  | nil => intro c; rfl
  | cons v vs ih =>
    intro c
    have h1 := ih (Append c 0 v)
    unfold appendAll at h1 ⊢
    rw [List.foldl_cons, h1, Append_compressed]

/-! ## Iterating over records -/

theorem drain_records : ∀ (vs : List (List Byte)) (it : valueIterator) (extra : List Byte)
    (fuel : Nat), it.err = none → it.br.unread = records vs ++ extra →
    it.numRead + vs.length = it.numTotal → it.numTotal < 2 ^ 16 →
    (∀ v ∈ vs, v.length ≤ maxAlloc) → vs.length < fuel →
    ∃ itEnd, drain fuel it = (vs.map delivered, some (Result.ret false), itEnd) ∧
      itEnd.err = none ∧ itEnd.numRead = it.numTotal ∧ itEnd.numTotal = it.numTotal ∧
      itEnd.br = { it.br with i := it.br.i + (records vs).length } := by
  intro vs
  induction vs with
  | nil =>
    intro it extra fuel herr _ hnum _ _ hfuel
    obtain ⟨f, rfl⟩ : ∃ f, fuel = f + 1 := ⟨fuel - 1, by simp at hfuel; omega⟩
    have hstop := Next_stopped it (Or.inr (by simpa using hnum))
    refine ⟨it, ?_, herr, by simpa using hnum, rfl, by simp [records]⟩
    simp [drain, hstop]
  | cons v vs ih =>
    intro it extra fuel herr hun hnum htot hv hfuel
    obtain ⟨f, rfl⟩ : ∃ f, fuel = f + 1 := ⟨fuel - 1, by simp at hfuel; omega⟩
    simp only [List.length_cons] at hnum hfuel
    have hvmax : (framed v).length ≤ maxAlloc :=
      framed_length_le v maxAlloc (by decide) (hv v (List.mem_cons_self _ _))
    have hlt : (framed v).length < 2 ^ 64 := Nat.lt_of_le_of_lt hvmax (by decide)
    have hun1 : it.br.unread =
        uvarint (framed v).length ++ (framed v ++ (records vs ++ extra)) := by
      rw [hun, records_cons, record]
      simp
    have hrd : (it.numRead + 1) % 2 ^ 16 = it.numRead + 1 := Nat.mod_eq_of_lt (by omega)
    have hstep := Next_record it (uvarint (framed v).length) (framed v) (records vs ++ extra)
      herr (by omega) hun1 (uvarint_wellFormed _ hlt) (varintValue_uvarint _ hlt) hvmax
      (Or.inl (framed_ne_nil v))
    rw [hrd, delivered_framed] at hstep
    have hadv := unread_advance it.br (uvarint (framed v).length ++ framed v)
      (records vs ++ extra) (by rw [hun1]; simp)
    rw [List.length_append, ← Nat.add_assoc] at hadv
    obtain ⟨itEnd, hd, h1, h2, h3, h4⟩ := ih
      { it with
        br := { it.br with i := it.br.i + (uvarint (framed v).length).length + (framed v).length }
        v := delivered v
        numRead := it.numRead + 1 }
      extra f herr hadv (by show it.numRead + 1 + vs.length = it.numTotal; omega) htot
      (fun w hw => hv w (List.mem_cons_of_mem _ hw)) (by omega)
    refine ⟨itEnd, ?_, h1, h2, h3, ?_⟩
    · rw [drain, hstep]
      simp only [hd, valueIterator.At, List.map_cons]
    · rw [h4, records_cons, record]
      simp [Nat.add_assoc]

/-! ## Fresh iterators -/

theorem Iterator_nil_of_uncompressed (codec : Codec) (c : valueChunk) (hc : c.compressed = []) :
    (c.Iterator codec none).1 =
      { br := NewReader c.b, numTotal := c.num, err := none, v := [], numRead := 0 } := by
  unfold valueChunk.Iterator
  simp [hc]

theorem Iterator_nil_fields (codec : Codec) (c : valueChunk) :
    (c.Iterator codec none).1.numTotal = c.num ∧ (c.Iterator codec none).1.numRead = 0 ∧
      (c.Iterator codec none).1.err = none := by
  by_cases h : c.b.length = 0 ∧ c.compressed.length ≠ 0
  · simp [valueChunk.Iterator, h]
  · simp only [valueChunk.Iterator, if_neg h, and_self]

theorem Iterator_reopened (codec : Codec) (c : valueChunk) (hc : c.compressed = [])
    (hcodec : ∀ x, (codec.decompress (codec.compress x).1).1 = x) :
    (({ compressed := c.Bytes codec, b := [], num := c.num } : valueChunk).Iterator codec none).1 =
      (c.Iterator codec none).1 := by
  rw [Iterator_nil_of_uncompressed codec c hc]
  unfold valueChunk.Iterator valueChunk.Bytes
  by_cases h : (codec.compress c.b).1 = []
  · have hb : c.b = [] := by
      have := hcodec c.b
      rw [h, codec.decompress_nil] at this
      exact this.symm
    rw [hb] at h
    simp [h, hb]
  · have hlen : (codec.compress c.b).1.length ≠ 0 := by
      intro h0
      exact h (List.length_eq_zero.mp h0)
    simp [hlen, hcodec]

theorem iterate_appendAll (codec : Codec) (vs : List (List Byte)) (fuel : Nat)
    (hn : vs.length < 2 ^ 16) (hv : ∀ v ∈ vs, v.length ≤ maxAlloc) (hfuel : vs.length < fuel) :
    ∃ itEnd, iterate codec (appendAll newValueChunk vs) fuel =
      (vs.map delivered, some (Result.ret false), itEnd) ∧ itEnd.err = none := by
  have hv64 : ∀ v ∈ vs, v.length < 2 ^ 64 := fun v h =>
    Nat.lt_of_le_of_lt (hv v h) (by decide)
  have hb : (appendAll newValueChunk vs).b = records vs := by
    rw [appendAll_b vs _ hv64]; rfl
  have hnum : (appendAll newValueChunk vs).num = vs.length := by
    rw [appendAll_num vs _ (by decide)]
    show (0 + vs.length) % 2 ^ 16 = vs.length
    rw [Nat.zero_add, Nat.mod_eq_of_lt hn]
  unfold iterate
  rw [Iterator_nil_of_uncompressed codec _ (appendAll_compressed vs _), hb, hnum]
  obtain ⟨itEnd, hd, herr, -⟩ := drain_records vs
    { br := NewReader (records vs), numTotal := vs.length, err := none, v := [], numRead := 0 }
    [] fuel rfl (by simp [Reader.unread, NewReader]) (by simp) hn hv hfuel
  exact ⟨itEnd, hd, herr⟩

/-! ## Successful steps -/

theorem Next_true_inv (it it1 : valueIterator) (h : it.Next = (Result.ret true, it1)) :
    it.err = none ∧ it1.err = none ∧ it1.numTotal = it.numTotal ∧
      it1.numRead = (it.numRead + 1) % 2 ^ 16 := by
  unfold valueIterator.Next at h
  by_cases hstop : it.err ≠ none ∨ it.numRead = it.numTotal
  · rw [if_pos hstop] at h
    simp at h
  · rw [if_neg hstop] at h
    have herr : it.err = none := by
      by_contra hne
      exact hstop (Or.inl hne)
    rcases hru : ReadUvarint it.br with ⟨n, e, br1⟩
    rw [hru] at h
    cases e with
    | some e => simp at h
    | none =>
      simp only at h
      by_cases hbig : n > maxAlloc
      · rw [if_pos hbig] at h
        simp at h
      · rw [if_neg hbig] at h
        rcases hrd : br1.Read (List.replicate n 0) with ⟨v, m, e, br2⟩
        rw [hrd] at h
        cases e with
        | some e => simp at h
        | none =>
          simp only [Prod.mk.injEq, true_and] at h
          subst h
          exact ⟨herr, herr, rfl, rfl⟩

theorem nextTimes_inv : ∀ (k : Nat) (it it1 : valueIterator), it.err = none →
    it.numRead < 2 ^ 16 → nextTimes k it = some it1 →
    it1.err = none ∧ it1.numTotal = it.numTotal ∧ it1.numRead = (it.numRead + k) % 2 ^ 16 := by
  intro k
  induction k with
  | zero =>
    intro it it1 herr hlt h
    simp only [nextTimes, Option.some.injEq] at h
    subst h
    exact ⟨herr, rfl, by rw [Nat.add_zero, Nat.mod_eq_of_lt hlt]⟩
  | succ k ih =>
    intro it it1 _ _ h
    rw [nextTimes] at h
    rcases hn : it.Next with ⟨res, it2⟩
    rw [hn] at h
    cases res with
    | panic msg => simp at h
    | ret b =>
      cases b with
      | false => simp at h
      | true =>
        simp only at h
        obtain ⟨-, h1, h2, h3⟩ := Next_true_inv it it2 hn
        obtain ⟨g1, g2, g3⟩ := ih it2 it1 h1 (by rw [h3]; exact Nat.mod_lt _ (by decide)) h
        refine ⟨g1, by rw [g2, h2], ?_⟩
        rw [g3, h3]
        omega

theorem NumSamples_replicate (n : Nat) :
    (appendAll newValueChunk (List.replicate n ([] : List Byte))).NumSamples = n % 2 ^ 16 := by
  unfold valueChunk.NumSamples
  rw [appendAll_num _ _ (by decide), List.length_replicate]
  show (0 + n) % 2 ^ 16 = _
  rw [Nat.zero_add]

theorem Next_malformed (it : valueIterator) (herr : it.err = none)
    (hrem : it.numRead ≠ it.numTotal)
    (hbad : ∀ p rest, it.br.unread = p ++ rest → wellFormedUvarint p = false) :
    ∃ e br1, it.Next = (Result.ret false, { it with br := br1, err := some e }) := by
  obtain ⟨e, he⟩ := ReadUvarint_error_of_malformed it.br hbad
  rcases hru : ReadUvarint it.br with ⟨n, e1, br1⟩
  rw [hru] at he
  simp only at he
  subst he
  refine ⟨e, br1, ?_⟩
  unfold valueIterator.Next
  rw [if_neg (by simp [herr, hrem]), hru]

/-! ## The claims -/

/-- C1. Round trip: for fewer than 65536 values, each of a length the runtime
can allocate, appending them in order to a chunk made by `newValueChunk` and
then calling `Next` on `Iterator(nil)` until it returns false yields through
`At` the same list with every entry equal to the single byte `0x20` replaced by
the empty value; the loop ends on `Next` returning false with `Err()` nil. -/
theorem roundtrip_append_iterate (codec : Codec) (vs : List (List Byte)) (fuel : Nat)
    (hn : vs.length < 2 ^ 16) (hv : ∀ v ∈ vs, v.length ≤ maxAlloc) (hfuel : vs.length < fuel) :
    (iterate codec (appendAll newValueChunk vs) fuel).1 = vs.map delivered ∧
    (iterate codec (appendAll newValueChunk vs) fuel).2.1 = some (Result.ret false) ∧
    (iterate codec (appendAll newValueChunk vs) fuel).2.2.Err = none := by
  obtain ⟨itEnd, h, herr⟩ := iterate_appendAll codec vs fuel hn hv hfuel
  rw [h]
  exact ⟨rfl, rfl, herr⟩

theorem roundtrip_append_iterate_witness :
    (iterate idCodec (appendAll newValueChunk [[], [0x78], [], [0x20], [1, 2, 3]]) 6).1 =
      List.map delivered [[], [0x78], [], [0x20], [1, 2, 3]] ∧
    (iterate idCodec (appendAll newValueChunk [[], [0x78], [], [0x20], [1, 2, 3]]) 6).2.1 =
      some (Result.ret false) ∧
    (iterate idCodec (appendAll newValueChunk [[], [0x78], [], [0x20], [1, 2, 3]]) 6).2.2.Err =
      none :=
  roundtrip_append_iterate idCodec [[], [0x78], [], [0x20], [1, 2, 3]] 6 (by decide)
    (by decide) (by decide)

/-- C2 (as amended). After `N` calls of `Append` on a chunk made by
`newValueChunk`, whatever the values, `NumSamples()` is `N` modulo 65536 (the
counter is a `uint16`), which is `N` itself for every `N` below 65536. -/
theorem NumSamples_appendAll (vs : List (List Byte)) :
    (appendAll newValueChunk vs).NumSamples = vs.length % 2 ^ 16 := by
  unfold valueChunk.NumSamples
  rw [appendAll_num vs _ (by decide)]
  show (0 + vs.length) % 2 ^ 16 = _
  rw [Nat.zero_add]

/-- C2, counterexample: after 65536 appends of the empty value `NumSamples()` is
0, not 65536. -/
theorem NumSamples_wraps :
    (List.replicate 65536 ([] : List Byte)).length = 65536 ∧
    (appendAll newValueChunk (List.replicate 65536 [])).NumSamples = 0 ∧
    (appendAll newValueChunk (List.replicate 65536 [])).NumSamples ≠
      (List.replicate 65536 ([] : List Byte)).length := by
  have h : (appendAll newValueChunk (List.replicate 65536 [])).NumSamples = 0 :=
    (NumSamples_replicate 65536).trans (by norm_num)
  refine ⟨List.length_replicate _ _, h, ?_⟩
  rw [h, List.length_replicate]
  decide

/-- C3. Wire format: `Append(t, v)` keeps the working buffer as a prefix and adds
exactly the base-128 encoding of the length of `v'` followed by `v'`, where `v'`
is `v`, or the single byte `0x20` for an empty `v`; after appending `vs` to a
fresh chunk the working buffer is the concatenation of these records in append
order and nothing else. -/
theorem Append_wire_format (c : valueChunk) (t : Int) (v : List Byte) (vs : List (List Byte))
    (hv : v.length < 2 ^ 64) (hvs : ∀ w ∈ vs, w.length < 2 ^ 64) :
    (Append c t v).b = c.b ++ (uvarint (framed v).length ++ framed v) ∧
    (appendAll newValueChunk vs).b =
      (vs.map (fun w => uvarint (framed w).length ++ framed w)).flatten := by
  refine ⟨Append_b c t v hv, ?_⟩
  rw [appendAll_b vs _ hvs]
  rfl

theorem Append_wire_format_witness :
    (Append { compressed := [], b := [1, 0x20], num := 1 } 7 [0x78, 0x79]).b =
      [1, 0x20] ++ (uvarint (framed [0x78, 0x79]).length ++ framed [0x78, 0x79]) ∧
    (appendAll newValueChunk [[], [0x78]]).b =
      (List.map (fun w => uvarint (framed w).length ++ framed w) [[], [0x78]]).flatten :=
  Append_wire_format { compressed := [], b := [1, 0x20], num := 1 } 7 [0x78, 0x79]
    [[], [0x78]] (by decide) (by decide)

/-- C4. Serialize and reopen: when the backend's decompression returns the
original bytes for every output of its compression, then for fewer than 65536
values the chunk made of the `Bytes()` output of the appended chunk, an empty
working buffer and the sample count `len(vs)` iterates exactly as the original
chunk does: the same values, ending on `Next` returning false with `Err()` nil. -/
theorem roundtrip_serialize_reopen (codec : Codec) (vs : List (List Byte)) (fuel : Nat)
    (hcodec : ∀ x, (codec.decompress (codec.compress x).1).1 = x)
    (hn : vs.length < 2 ^ 16) (hv : ∀ v ∈ vs, v.length ≤ maxAlloc) (hfuel : vs.length < fuel) :
    iterate codec
        { compressed := (appendAll newValueChunk vs).Bytes codec, b := [], num := vs.length }
        fuel =
      iterate codec (appendAll newValueChunk vs) fuel ∧
    (iterate codec
        { compressed := (appendAll newValueChunk vs).Bytes codec, b := [], num := vs.length }
        fuel).1 = vs.map delivered ∧
    (iterate codec
        { compressed := (appendAll newValueChunk vs).Bytes codec, b := [], num := vs.length }
        fuel).2.1 = some (Result.ret false) ∧
    (iterate codec
        { compressed := (appendAll newValueChunk vs).Bytes codec, b := [], num := vs.length }
        fuel).2.2.Err = none := by
  have hnum : (appendAll newValueChunk vs).num = vs.length := by
    rw [appendAll_num vs _ (by decide)]
    show (0 + vs.length) % 2 ^ 16 = vs.length
    rw [Nat.zero_add, Nat.mod_eq_of_lt hn]
  have hit := Iterator_reopened codec (appendAll newValueChunk vs)
    (appendAll_compressed vs _) hcodec
  rw [hnum] at hit
  have hsame : iterate codec
      { compressed := (appendAll newValueChunk vs).Bytes codec, b := [], num := vs.length }
      fuel = iterate codec (appendAll newValueChunk vs) fuel := by
    unfold iterate
    rw [hit]
  obtain ⟨itEnd, h, herr⟩ := iterate_appendAll codec vs fuel hn hv hfuel
  rw [hsame, h]
  exact ⟨rfl, rfl, rfl, herr⟩

theorem roundtrip_serialize_reopen_witness :
    iterate idCodec
        { compressed := (appendAll newValueChunk [[], [0x78], [0x20]]).Bytes idCodec, b := [],
          num := [[], [0x78], [(0x20 : Byte)]].length }
        4 =
      iterate idCodec (appendAll newValueChunk [[], [0x78], [0x20]]) 4 ∧
    (iterate idCodec
        { compressed := (appendAll newValueChunk [[], [0x78], [0x20]]).Bytes idCodec, b := [],
          num := [[], [0x78], [(0x20 : Byte)]].length }
        4).1 = List.map delivered [[], [0x78], [0x20]] ∧
    (iterate idCodec
        { compressed := (appendAll newValueChunk [[], [0x78], [0x20]]).Bytes idCodec, b := [],
          num := [[], [0x78], [(0x20 : Byte)]].length }
        4).2.1 = some (Result.ret false) ∧
    (iterate idCodec
        { compressed := (appendAll newValueChunk [[], [0x78], [0x20]]).Bytes idCodec, b := [],
          num := [[], [0x78], [(0x20 : Byte)]].length }
        4).2.2.Err = none :=
  roundtrip_serialize_reopen idCodec [[], [0x78], [0x20]] 4 (fun _ => rfl) (by decide)
    (by decide) (by decide)

/-- C5 (failing input). A record announcing two bytes with only one byte left:
`Next` returns true, `At` gives that byte padded with a zero byte, `Err()` is
nil; the short read is not reported. -/
theorem Next_short_read_unreported :
    wellFormedUvarint [2] = true ∧ varintValue [2] = 2 ∧
    ([0x41] : List Byte).length < varintValue [2] ∧
    (NewReader [2, 0x41]).unread = [2] ++ [0x41] ∧
    (valueIterator.Next
      { br := NewReader [2, 0x41], numTotal := 1, err := none, v := [], numRead := 0 }).1 =
        Result.ret true ∧
    (valueIterator.Next
      { br := NewReader [2, 0x41], numTotal := 1, err := none, v := [], numRead := 0 }).2.At =
        (0, [0x41, 0]) ∧
    (valueIterator.Next
      { br := NewReader [2, 0x41], numTotal := 1, err := none, v := [], numRead := 0 }).2.Err =
        none := by
  decide

/-- C6. Malformed length: an iterator with no error and a sample remaining
whose unread bytes start with no well-formed unsigned varint (none left, ending
inside a varint, or overflowing 64 bits) gets false from `Next`, a non-nil
`Err()` afterwards, and an unchanged count of values read. -/
theorem Next_malformed_length (it : valueIterator) (herr : it.Err = none)
    (hrem : it.numRead < it.numTotal)
    (hbad : ∀ p rest, it.br.unread = p ++ rest → wellFormedUvarint p = false) :
    it.Next.1 = Result.ret false ∧ it.Next.2.Err ≠ none ∧ it.Next.2.numRead = it.numRead := by
  obtain ⟨e, br1, h⟩ := Next_malformed it herr (Nat.ne_of_lt hrem) hbad
  rw [h]
  exact ⟨rfl, by simp [valueIterator.Err], rfl⟩

theorem Next_malformed_length_witness :
    (valueIterator.Next
      { br := NewReader [], numTotal := 1, err := none, v := [], numRead := 0 }).1 =
        Result.ret false ∧
    (valueIterator.Next
      { br := NewReader [], numTotal := 1, err := none, v := [], numRead := 0 }).2.Err ≠ none ∧
    (valueIterator.Next
      { br := NewReader [], numTotal := 1, err := none, v := [], numRead := 0 }).2.numRead =
        (0 : Nat) :=
  Next_malformed_length
    { br := NewReader [], numTotal := 1, err := none, v := [], numRead := 0 } rfl (by decide)
    (fun p rest h => by
      have hp : p = [] := (List.append_eq_nil.mp h.symm).1
      rw [hp]
      rfl)

/-- C7 (as amended). Decode step: for an iterator with no error and a sample
remaining, over a buffer the runtime can hold, whose unread bytes are a
well-formed unsigned varint `L`, then `L` bytes, then the rest, where `L` is at
least 1 or the rest is not empty: `Next` returns true, `At` gives those `L`
bytes (the empty value when they are the single byte `0x20`), the read position
moves on by the varint's length plus `L`, the count of values read grows by
one, and `Err()` stays nil. -/
theorem Next_decodes_record (it : valueIterator) (p body rest : List Byte)
    (herr : it.Err = none) (hrem : it.numRead < it.numTotal) (htot : it.numTotal < 2 ^ 16)
    (hbuf : it.br.s.length ≤ maxAlloc)
    (hun : it.br.unread = p ++ (body ++ rest)) (hp : wellFormedUvarint p = true)
    (hL : varintValue p = body.length) (hne : body ≠ [] ∨ rest ≠ []) :
    it.Next.1 = Result.ret true ∧
    it.Next.2.At.2 = (if body = [(0x20 : Byte)] then [] else body) ∧
    it.Next.2.br.i = it.br.i + (p.length + body.length) ∧
    it.Next.2.br.s = it.br.s ∧
    it.Next.2.numRead = it.numRead + 1 ∧
    it.Next.2.Err = none := by
  have hmax : body.length ≤ maxAlloc := by
    have h1 : it.br.unread.length ≤ it.br.s.length := by
      unfold Reader.unread
      rw [List.length_drop]
      omega
    rw [hun] at h1
    simp only [List.length_append] at h1
    omega
  have h := Next_record it p body rest herr (Nat.ne_of_lt hrem) hun hp hL hmax hne
  rw [h]
  refine ⟨rfl, rfl, by show it.br.i + p.length + body.length = _; omega, rfl, ?_, herr⟩
  show (it.numRead + 1) % 2 ^ 16 = it.numRead + 1
  exact Nat.mod_eq_of_lt (by omega)

theorem Next_decodes_record_witness :
    (valueIterator.Next
      { br := { s := [1, 0x20, 2, 0x78, 0x79], i := 2 }, numTotal := 2, err := none, v := [],
        numRead := 1 }).1 = Result.ret true ∧
    (valueIterator.Next
      { br := { s := [1, 0x20, 2, 0x78, 0x79], i := 2 }, numTotal := 2, err := none, v := [],
        numRead := 1 }).2.At.2 =
      (if ([0x78, 0x79] : List Byte) = [(0x20 : Byte)] then [] else [0x78, 0x79]) ∧
    (valueIterator.Next
      { br := { s := [1, 0x20, 2, 0x78, 0x79], i := 2 }, numTotal := 2, err := none, v := [],
        numRead := 1 }).2.br.i = 2 + (([2] : List Byte).length + ([0x78, 0x79] : List Byte).length) ∧
    (valueIterator.Next
      { br := { s := [1, 0x20, 2, 0x78, 0x79], i := 2 }, numTotal := 2, err := none, v := [],
        numRead := 1 }).2.br.s = [1, 0x20, 2, 0x78, 0x79] ∧
    (valueIterator.Next
      { br := { s := [1, 0x20, 2, 0x78, 0x79], i := 2 }, numTotal := 2, err := none, v := [],
        numRead := 1 }).2.numRead = 1 + 1 ∧
    (valueIterator.Next
      { br := { s := [1, 0x20, 2, 0x78, 0x79], i := 2 }, numTotal := 2, err := none, v := [],
        numRead := 1 }).2.Err = none :=
  Next_decodes_record
    { br := { s := [1, 0x20, 2, 0x78, 0x79], i := 2 }, numTotal := 2, err := none, v := [],
      numRead := 1 }
    [2] [0x78, 0x79] [] rfl (by decide) (by decide) (by decide) (by decide) (by decide)
    (by decide) (by decide)

/-- C7, counterexample: a record of length 0 that ends exactly at the end of the
buffer. The unread bytes are the well-formed varint 0 followed by the 0 bytes
it announces, yet `Next` returns false and `Err()` is `io.EOF`. -/
theorem Next_empty_record_at_end :
    wellFormedUvarint [0] = true ∧ varintValue [0] = ([] : List Byte).length ∧
    (NewReader [0]).unread = [0] ++ (([] : List Byte) ++ []) ∧
    (valueIterator.Next
      { br := NewReader [0], numTotal := 1, err := none, v := [], numRead := 0 }).1 =
        Result.ret false ∧
    (valueIterator.Next
      { br := NewReader [0], numTotal := 1, err := none, v := [], numRead := 0 }).2.Err =
        some error.EOF := by
  decide

/-- C8. Clean exhaustion: on the iterator `Iterator(nil)` gives for any chunk,
whatever its buffers hold, once `Next` has returned true `NumSamples()` times
the following `Next` returns false, changes nothing, and `Err()` is nil. -/
theorem Next_after_all_samples (codec : Codec) (c : valueChunk) (it1 : valueIterator)
    (hnum : c.num < 2 ^ 16) (h : nextTimes c.NumSamples (c.Iterator codec none).1 = some it1) :
    it1.Next = (Result.ret false, it1) ∧ it1.Next.2.Err = none := by
  obtain ⟨htot, hread, herr⟩ := Iterator_nil_fields codec c
  obtain ⟨h1, h2, h3⟩ := nextTimes_inv c.NumSamples _ it1 herr (by rw [hread]; decide) h
  have hdone : it1.numRead = it1.numTotal := by
    rw [h3, h2, hread, htot, Nat.zero_add]
    exact Nat.mod_eq_of_lt hnum
  have hstop := Next_stopped it1 (Or.inr hdone)
  rw [hstop]
  exact ⟨rfl, h1⟩

theorem Next_after_all_samples_witness :
    (valueIterator.Next
      { br := { s := [1, 0x78, 2, 0x41], i := 2 }, numTotal := 1, err := none, v := [0x78],
        numRead := 1 }) =
      (Result.ret false,
        { br := { s := [1, 0x78, 2, 0x41], i := 2 }, numTotal := 1, err := none, v := [0x78],
          numRead := 1 }) ∧
    (valueIterator.Next
      { br := { s := [1, 0x78, 2, 0x41], i := 2 }, numTotal := 1, err := none, v := [0x78],
        numRead := 1 }).2.Err = none :=
  Next_after_all_samples idCodec { compressed := [], b := [1, 0x78, 2, 0x41], num := 1 }
    { br := { s := [1, 0x78, 2, 0x41], i := 2 }, numTotal := 1, err := none, v := [0x78],
      numRead := 1 }
    (by decide) (by decide)

/-- C9. Terminal states: when `Err()` is non-nil or the count of values read
equals the sample count, `Next` returns false and leaves the whole iterator as
it was (read position, count read, last value, error); so does every later
call, and an error once set is never cleared. -/
theorem Next_terminal (it : valueIterator) (k : Nat)
    (h : it.Err ≠ none ∨ it.numRead = it.numTotal) :
    it.Next = (Result.ret false, it) ∧
    Nat.iterate (fun s => (valueIterator.Next s).2) k it = it ∧
    (Nat.iterate (fun s => (valueIterator.Next s).2) k it).Next = (Result.ret false, it) := by
  have hstop := Next_stopped it h
  have hiter : Nat.iterate (fun s => (valueIterator.Next s).2) k it = it := by
    induction k with
    | zero => rfl
    | succ k ih =>
      rw [Function.iterate_succ_apply, hstop]
      exact ih
  rw [hiter]
  exact ⟨hstop, rfl, hstop⟩

theorem Next_terminal_witness :
    (valueIterator.Next
      { br := { s := [0x80], i := 1 }, numTotal := 3, err := some error.ErrUnexpectedEOF,
        v := [0x78], numRead := 1 }) =
      (Result.ret false,
        { br := { s := [0x80], i := 1 }, numTotal := 3, err := some error.ErrUnexpectedEOF,
          v := [0x78], numRead := 1 }) ∧
    Nat.iterate (fun s => (valueIterator.Next s).2) 4
      { br := { s := [0x80], i := 1 }, numTotal := 3, err := some error.ErrUnexpectedEOF,
        v := [0x78], numRead := 1 } =
      { br := { s := [0x80], i := 1 }, numTotal := 3, err := some error.ErrUnexpectedEOF,
        v := [0x78], numRead := 1 } ∧
    (Nat.iterate (fun s => (valueIterator.Next s).2) 4
      { br := { s := [0x80], i := 1 }, numTotal := 3, err := some error.ErrUnexpectedEOF,
        v := [0x78], numRead := 1 }).Next =
      (Result.ret false,
        { br := { s := [0x80], i := 1 }, numTotal := 3, err := some error.ErrUnexpectedEOF,
          v := [0x78], numRead := 1 }) :=
  Next_terminal
    { br := { s := [0x80], i := 1 }, numTotal := 3, err := some error.ErrUnexpectedEOF,
      v := [0x78], numRead := 1 }
    4 (Or.inl (by decide))

/-- C10. Seek: for every iterator and target, `Seek` returns no boolean; it
panics with the message "implement me", and the iterator is left as it was. -/
theorem Seek_panics_unsupported (it : valueIterator) (t : Int) :
    (it.Seek t).1 = Result.panic "implement me" ∧ (∀ b, (it.Seek t).1 ≠ Result.ret b) ∧
    (it.Seek t).2 = it := by
  refine ⟨rfl, fun b h => ?_, rfl⟩
  simp [valueIterator.Seek] at h

/-! ## The four outcomes of a step -/

theorem Next_cases (it : valueIterator) :
    ((it.err ≠ none ∨ it.numRead = it.numTotal) ∧ it.Next = (Result.ret false, it)) ∨
    (it.err = none ∧ it.numRead ≠ it.numTotal ∧
      ∃ e br1 v, it.Next = (Result.ret false, { it with br := br1, v := v, err := some e })) ∨
    (it.err = none ∧ it.numRead ≠ it.numTotal ∧
      ∃ msg br1, it.Next = (Result.panic msg, { it with br := br1 })) ∨
    (it.err = none ∧ it.numRead ≠ it.numTotal ∧
      ∃ br1 v, it.Next = (Result.ret true,
        { it with br := br1, v := v, numRead := (it.numRead + 1) % 2 ^ 16 })) := by
  by_cases hstop : it.err ≠ none ∨ it.numRead = it.numTotal
  · exact Or.inl ⟨hstop, Next_stopped it hstop⟩
  · have herr : it.err = none := by
      by_contra hne
      exact hstop (Or.inl hne)
    have hrem : it.numRead ≠ it.numTotal := fun h => hstop (Or.inr h)
    refine Or.inr ?_
    unfold valueIterator.Next
    rw [if_neg hstop]
    rcases hru : ReadUvarint it.br with ⟨n, e, br1⟩
    cases e with
    | some e => exact Or.inl ⟨herr, hrem, e, br1, it.v, rfl⟩
    | none =>
      simp only
      by_cases hbig : n > maxAlloc
      · rw [if_pos hbig]
        exact Or.inr (Or.inl ⟨herr, hrem, _, br1, rfl⟩)
      · rw [if_neg hbig]
        rcases hrd : br1.Read (List.replicate n 0) with ⟨v, m, e, br2⟩
        cases e with
        | some e => exact Or.inl ⟨herr, hrem, e, br2, v, rfl⟩
        | none => exact Or.inr (Or.inr ⟨herr, hrem, br2, _, rfl⟩)

theorem Next_err_iff (it : valueIterator) :
    it.Next.2.err ≠ none ↔ (it.err ≠ none ∨ stopsOnDecodeFailure it = true) := by
  unfold stopsOnDecodeFailure
  rw [decide_eq_true_iff]
  rcases Next_cases it with ⟨hstop, h⟩ | ⟨herr, hrem, e, br1, v, h⟩ | ⟨herr, hrem, msg, br1, h⟩ |
    ⟨herr, hrem, br1, v, h⟩
  · rw [h]
    constructor
    · intro hne; exact Or.inl hne
    · rintro (hne | ⟨h1, h2, -⟩)
      · exact hne
      · rcases hstop with hs | hs
        · exact absurd h1 hs
        · exact absurd hs h2
  · rw [h]
    simp [herr, hrem]
  · rw [h]
    simp [herr]
  · rw [h]
    simp [herr]

theorem Next_count (it : valueIterator) (hle : it.numRead ≤ it.numTotal)
    (htot : it.numTotal < 2 ^ 16) :
    it.Next.2.numTotal = it.numTotal ∧
    it.Next.2.numRead = it.numRead + (if it.Next.1 = Result.ret true then 1 else 0) ∧
    it.Next.2.numRead ≤ it.numTotal := by
  rcases Next_cases it with ⟨-, h⟩ | ⟨-, -, e, br1, v, h⟩ | ⟨-, -, msg, br1, h⟩ |
    ⟨-, hrem, br1, v, h⟩
  · rw [h]; simp [hle]
  · rw [h]; simp [hle]
  · rw [h]; simp [hle]
  · rw [h]
    have hmod : (it.numRead + 1) % 2 ^ 16 = it.numRead + 1 := Nat.mod_eq_of_lt (by omega)
    simp only [hmod, if_true, true_and]
    omega

theorem Next_false_clean (it : valueIterator) (hfalse : it.Next.1 = Result.ret false)
    (hclean : it.Next.2.err = none) : it.numRead = it.numTotal := by
  rcases Next_cases it with ⟨hstop, h⟩ | ⟨-, -, e, br1, v, h⟩ | ⟨-, -, msg, br1, h⟩ |
    ⟨-, -, br1, v, h⟩
  · rw [h] at hclean
    rcases hstop with hs | hs
    · exact absurd hclean hs
    · exact hs
  · rw [h] at hclean; simp at hclean
  · rw [h] at hfalse; simp at hfalse
  · rw [h] at hfalse; simp at hfalse

theorem callNext_succ (n : Nat) (it : valueIterator) :
    (callNext (n + 1) it).1 = (callNext n it.Next.2).1 := rfl

theorem callNext_count : ∀ (n : Nat) (it : valueIterator), it.numRead ≤ it.numTotal →
    it.numTotal < 2 ^ 16 →
    (callNext n it).1.numTotal = it.numTotal ∧
    (callNext n it).1.numRead = it.numRead + (callNext n it).2 ∧
    (callNext n it).1.numRead ≤ it.numTotal := by
  intro n
  induction n with
  | zero => intro it hle _; exact ⟨rfl, rfl, hle⟩
  | succ n ih =>
    intro it hle htot
    obtain ⟨h1, h2, h3⟩ := Next_count it hle htot
    obtain ⟨g1, g2, g3⟩ := ih it.Next.2 (by rw [h1]; exact h3) (by rw [h1]; exact htot)
    show (callNext n it.Next.2).1.numTotal = it.numTotal ∧
      (callNext n it.Next.2).1.numRead =
        it.numRead + ((if it.Next.1 = Result.ret true then 1 else 0) + (callNext n it.Next.2).2) ∧
      (callNext n it.Next.2).1.numRead ≤ it.numTotal
    refine ⟨by rw [g1, h1], by rw [g2, h2]; omega, by rw [← h1]; exact g3⟩

theorem callNext_err_iff : ∀ (n : Nat) (it : valueIterator),
    (callNext n it).1.err ≠ none ↔
      (it.err ≠ none ∨ ∃ j, j < n ∧ stopsOnDecodeFailure (callNext j it).1 = true) := by
  intro n
  induction n with
  | zero =>
    intro it
    show it.err ≠ none ↔ _
    constructor
    · intro h; exact Or.inl h
    · rintro (h | ⟨j, hj, -⟩)
      · exact h
      · exact absurd hj (Nat.not_lt_zero j)
  | succ n ih =>
    intro it
    rw [callNext_succ, ih it.Next.2, Next_err_iff]
    constructor
    · rintro ((h | h) | ⟨j, hj, h⟩)
      · exact Or.inl h
      · exact Or.inr ⟨0, Nat.succ_pos n, h⟩
      · exact Or.inr ⟨j + 1, Nat.succ_lt_succ hj, h⟩
    · rintro (h | ⟨j, hj, h⟩)
      · exact Or.inl (Or.inl h)
      · cases j with
        | zero => exact Or.inl (Or.inr h)
        | succ j => exact Or.inr ⟨j, Nat.lt_of_succ_lt_succ hj, h⟩

/-! ## The value a successful step stores -/

theorem Next_true_value (it it1 : valueIterator) (p body rest : List Byte)
    (hnext : it.Next = (Result.ret true, it1))
    (hun : it.br.unread = p ++ (body ++ rest)) (hp : wellFormedUvarint p = true)
    (hL : varintValue p = body.length) : it1.v = delivered body := by
  have hru := ReadUvarint_wellFormed it.br p (body ++ rest) hun hp
  have hun1 := unread_advance it.br p (body ++ rest) hun
  unfold valueIterator.Next at hnext
  by_cases hstop : it.err ≠ none ∨ it.numRead = it.numTotal
  · rw [if_pos hstop] at hnext
    simp at hnext
  · rw [if_neg hstop] at hnext
    simp only [hru, hL] at hnext
    by_cases hbig : body.length > maxAlloc
    · rw [if_pos hbig] at hnext
      simp at hnext
    · rw [if_neg hbig] at hnext
      by_cases hne : body ≠ [] ∨ rest ≠ []
      · rw [Read_full _ body rest hun1 hne] at hnext
        simp only [Prod.mk.injEq, true_and] at hnext
        rw [← hnext]
        rfl
      · have hnil : body = [] ∧ rest = [] := by
          constructor
          · by_contra h; exact hne (Or.inl h)
          · by_contra h; exact hne (Or.inr h)
        rw [hnil.1, hnil.2] at hun1
        rw [Read_eof _ _ hun1] at hnext
        simp at hnext

/-! ## The record `Append` writes -/

theorem lengthPrefix_eq_uvarint (L : Nat) (hL : L < 2 ^ 64) : lengthPrefix L = uvarint L := by
  unfold lengthPrefix
  exact PutUvarint_spec _ L (by simp) hL

theorem Append_b_lengthPrefix (c : valueChunk) (t : Int) (v : List Byte) :
    (Append c t v).b = (c.b ++ lengthPrefix (framed v).length) ++ framed v := by
  have hf : (if v.length = 0 then [(0x20 : Byte)] else v) = framed v := by
    unfold framed
    by_cases h : v = []
    · simp [h]
    · simp [h]
  unfold Append lengthPrefix
  simp only [hf]

theorem framed_length_pos (v : List Byte) : 1 ≤ (framed v).length :=
  List.length_pos.mpr (framed_ne_nil v)

theorem framed_length_lt (v : List Byte) (hv : v.length < 2 ^ 64) :
    (framed v).length < 2 ^ 64 := by
  unfold framed
  by_cases h : v = []
  · rw [if_pos h]; decide
  · rw [if_neg h]; exact hv

theorem uvarint_head_ne_zero (L : Nat) (hL : 1 ≤ L) : (uvarint L).head? ≠ some 0 := by
  by_cases hs : L < 128
  · rw [uvarint_small L hs]
    simp only [List.head?_cons, ne_eq, Option.some.injEq]
    intro h
    have := congrArg Fin.val h
    rw [byte_val_of_lt L (by omega)] at this
    simp at this
    omega
  · rw [uvarint_large L (Nat.le_of_not_lt hs)]
    simp only [List.head?_cons, ne_eq, Option.some.injEq]
    intro h
    have := congrArg Fin.val h
    rw [byte_val_of_lt _ (by omega)] at this
    simp at this

theorem record_nil : record [] = [1, 0x20] := by
  unfold record framed
  simp only [if_true, List.length_singleton]
  rw [uvarint_small 1 (by decide)]
  rfl

theorem record_space : record [0x20] = [1, 0x20] := by
  unfold record framed
  rw [if_neg (by decide)]
  simp only [List.length_singleton]
  rw [uvarint_small 1 (by decide)]
  rfl

/-! ## The claims, continued -/

/-- C11. `Compact()` leaves the chunk as it was: the bytes of the working buffer,
the compressed buffer and the sample count, hence `NumSamples()`, `Bytes()` and
the outcome of iterating; only the capacity can change, to the length of the
working buffer. -/
theorem Compact_preserves (threshold cap fuel : Nat) (codec : Codec) (c : valueChunk) :
    (c.Compact threshold cap).1 = c ∧
    (c.Compact threshold cap).1.NumSamples = c.NumSamples ∧
    (c.Compact threshold cap).1.Bytes codec = c.Bytes codec ∧
    iterate codec (c.Compact threshold cap).1 fuel = iterate codec c fuel ∧
    ((c.Compact threshold cap).2 = cap ∨ (c.Compact threshold cap).2 = c.b.length) := by
  have h : (c.Compact threshold cap).1 = c := by
    unfold valueChunk.Compact
    by_cases hcap : cap > c.b.length + threshold
    · simp [hcap, copy]
    · simp [hcap]
  refine ⟨h, by rw [h], by rw [h], by rw [h], ?_⟩
  unfold valueChunk.Compact
  by_cases hcap : cap > c.b.length + threshold
  · simp [hcap]
  · simp [hcap]

/-- C13 (failing input). A chunk of one sample reopened from a stream whose
decoding fails after the payload `[2, 0x78, 0x79]` has lost its last byte:
iterating delivers the value `[0x78, 0]` and ends on `Next` returning false
with `Err()` nil. -/
theorem iterate_truncated_payload_unreported :
    truncatingCodec.decompress [2, 0x78, 0x79] = ([2, 0x78], some error.codec) ∧
    (iterate truncatingCodec { compressed := [2, 0x78, 0x79], b := [], num := 1 } 2).1 =
      [[0x78, 0]] ∧
    (iterate truncatingCodec { compressed := [2, 0x78, 0x79], b := [], num := 1 } 2).2.1 =
      some (Result.ret false) ∧
    (iterate truncatingCodec { compressed := [2, 0x78, 0x79], b := [], num := 1 } 2).2.2.Err =
      none := by
  decide

/-- C14 (failing input). An exhausted iterator passed to `Iterator` for reuse
comes back as it is: read position 2, one value read; iterating it yields
nothing, while `Iterator(nil)` on the same chunk yields the value `[0x78]`. -/
theorem Iterator_reuse_not_reset :
    (valueChunk.Iterator idCodec { compressed := [], b := [1, 0x78], num := 1 }
      (some { br := { s := [1, 0x78], i := 2 }, numTotal := 1, err := none, v := [0x78],
              numRead := 1 })).1 =
      { br := { s := [1, 0x78], i := 2 }, numTotal := 1, err := none, v := [0x78],
        numRead := 1 } ∧
    (drain 2 (valueChunk.Iterator idCodec { compressed := [], b := [1, 0x78], num := 1 }
      (some { br := { s := [1, 0x78], i := 2 }, numTotal := 1, err := none, v := [0x78],
              numRead := 1 })).1).1 = [] ∧
    (drain 2 (valueChunk.Iterator idCodec { compressed := [], b := [1, 0x78], num := 1 }
      none).1).1 = [[0x78]] := by
  decide

/-- C15 (failing input). On a chunk with an empty working buffer and the
compressed buffer `[1, 0x78]`, `Iterator` with an iterator to reuse leaves the
working buffer empty and the compressed buffer in place; `Iterator(nil)` on the
same chunk decompresses. -/
theorem Iterator_reuse_skips_decompression :
    (valueChunk.Iterator idCodec { compressed := [1, 0x78], b := [], num := 1 }
      (some { br := NewReader [], numTotal := 0, err := none, v := [], numRead := 0 })).2 =
      { compressed := [1, 0x78], b := [], num := 1 } ∧
    (valueChunk.Iterator idCodec { compressed := [1, 0x78], b := [], num := 1 } none).2 =
      { compressed := [], b := [1, 0x78], num := 1 } := by
  decide

/-- C16. `At()` returns timestamp 0 and the stored value in every state, as a
function of the state alone (it writes nothing); right after a `Next` call that
returned true on a record, the value is the record's bytes, or the empty value
when they are the single byte `0x20`. -/
theorem At_zero_timestamp_last_value (it0 it it1 : valueIterator) (p body rest : List Byte)
    (hnext : it.Next = (Result.ret true, it1))
    (hun : it.br.unread = p ++ (body ++ rest)) (hp : wellFormedUvarint p = true)
    (hL : varintValue p = body.length) :
    it0.At.1 = 0 ∧ it0.At = (0, it0.v) ∧
    it1.At = (0, if body = [(0x20 : Byte)] then [] else body) := by
  refine ⟨rfl, rfl, ?_⟩
  unfold valueIterator.At
  rw [Next_true_value it it1 p body rest hnext hun hp hL]
  rfl

theorem At_zero_timestamp_last_value_witness :
    (valueIterator.At
      { br := { s := [0x80], i := 1 }, numTotal := 3, err := some error.ErrUnexpectedEOF,
        v := [0x78], numRead := 1 }).1 = 0 ∧
    valueIterator.At
      { br := { s := [0x80], i := 1 }, numTotal := 3, err := some error.ErrUnexpectedEOF,
        v := [0x78], numRead := 1 } = (0, [0x78]) ∧
    valueIterator.At
      { br := { s := [1, 0x20, 1, 0x78], i := 2 }, numTotal := 2, err := none, v := [],
        numRead := 1 } =
      (0, if ([0x20] : List Byte) = [(0x20 : Byte)] then [] else [0x20]) :=
  At_zero_timestamp_last_value
    { br := { s := [0x80], i := 1 }, numTotal := 3, err := some error.ErrUnexpectedEOF,
      v := [0x78], numRead := 1 }
    { br := NewReader [1, 0x20, 1, 0x78], numTotal := 2, err := none, v := [0x41],
      numRead := 0 }
    { br := { s := [1, 0x20, 1, 0x78], i := 2 }, numTotal := 2, err := none, v := [],
      numRead := 1 }
    [1] [0x20] [1, 0x78] (by decide) (by decide) (by decide) (by decide)

/-- C17. No silently short iteration: on the iterator `Iterator(nil)` gives,
after any number of `Next` calls, if the following `Next` returns false and
`Err()` is nil afterwards, then the calls that returned true so far are exactly
`NumSamples()` many; and `Err()` is non-nil exactly when one of the calls made
stopped on a decode failure. -/
theorem no_silently_short_iteration (codec : Codec) (c : valueChunk) (n : Nat)
    (hnum : c.num < 2 ^ 16) :
    ((callNext n (c.Iterator codec none).1).1.Next.1 = Result.ret false →
      (callNext n (c.Iterator codec none).1).1.Next.2.Err = none →
      (callNext n (c.Iterator codec none).1).2 = c.NumSamples) ∧
    ((callNext n (c.Iterator codec none).1).1.Err ≠ none ↔
      ∃ j, j < n ∧ stopsOnDecodeFailure (callNext j (c.Iterator codec none).1).1 = true) := by
  obtain ⟨htot, hread, herr⟩ := Iterator_nil_fields codec c
  obtain ⟨h1, h2, -⟩ := callNext_count n (c.Iterator codec none).1 (by rw [hread]; omega)
    (by rw [htot]; exact hnum)
  constructor
  · intro hfalse hclean
    have hdone := Next_false_clean _ hfalse hclean
    rw [h1, h2, hread, htot, Nat.zero_add] at hdone
    exact hdone
  · have h := callNext_err_iff n (c.Iterator codec none).1
    unfold valueIterator.Err
    rw [h]
    constructor
    · rintro (h0 | h0)
      · exact absurd herr h0
      · exact h0
    · intro h0; exact Or.inr h0

theorem no_silently_short_iteration_witness :
    ((callNext 1 (valueChunk.Iterator idCodec
        { compressed := [], b := [1, 0x78], num := 1 } none).1).1.Next.1 =
          Result.ret false →
      (callNext 1 (valueChunk.Iterator idCodec
        { compressed := [], b := [1, 0x78], num := 1 } none).1).1.Next.2.Err = none →
      (callNext 1 (valueChunk.Iterator idCodec
        { compressed := [], b := [1, 0x78], num := 1 } none).1).2 =
        valueChunk.NumSamples { compressed := [], b := [1, 0x78], num := 1 }) ∧
    ((callNext 1 (valueChunk.Iterator idCodec
        { compressed := [], b := [1, 0x78], num := 1 } none).1).1.Err ≠ none ↔
      ∃ j, j < 1 ∧ stopsOnDecodeFailure (callNext j (valueChunk.Iterator idCodec
        { compressed := [], b := [1, 0x78], num := 1 } none).1).1 = true) :=
  no_silently_short_iteration idCodec { compressed := [], b := [1, 0x78], num := 1 } 1
    (by decide)

/-- C18. Empty-value rule: the record `Append` adds for any value, the empty one
included, has at least two bytes, does not begin with the byte `0x00`, and its
length prefix reads back as a length of at least 1 without error; for the empty
value the record is the two bytes `0x01 0x20`, the same as for the one-byte
value `0x20`. -/
theorem Append_empty_value_rule (c : valueChunk) (t : Int) (v rest : List Byte)
    (hv : v.length < 2 ^ 64) :
    (Append c t v).b.take c.b.length = c.b ∧
    2 ≤ ((Append c t v).b.drop c.b.length).length ∧
    ((Append c t v).b.drop c.b.length).head? ≠ some 0 ∧
    (ReadUvarint (NewReader ((Append c t v).b.drop c.b.length ++ rest))).2.1 = none ∧
    1 ≤ (ReadUvarint (NewReader ((Append c t v).b.drop c.b.length ++ rest))).1 ∧
    (Append c t []).b = c.b ++ [1, 0x20] ∧
    (Append c t [0x20]).b = c.b ++ [1, 0x20] := by
  have hpos := framed_length_pos v
  have hlt := framed_length_lt v hv
  have hb := Append_b c t v hv
  have hdrop : (Append c t v).b.drop c.b.length = record v := by
    rw [hb, List.drop_left]
  have hru := ReadUvarint_wellFormed (NewReader (record v ++ rest))
    (uvarint (framed v).length) (framed v ++ rest)
    (by simp [Reader.unread, NewReader, record]) (uvarint_wellFormed _ hlt)
  rw [varintValue_uvarint _ hlt] at hru
  rw [hdrop, hru]
  refine ⟨by rw [hb, List.take_left], ?_, ?_, rfl, hpos, ?_, ?_⟩
  · unfold record
    rw [List.length_append]
    have := uvarint_length_pos (framed v).length
    omega
  · unfold record
    rw [List.head?_append_of_ne_nil _ (List.ne_nil_of_length_pos (uvarint_length_pos _))]
    exact uvarint_head_ne_zero _ hpos
  · rw [Append_b c t [] (by decide), record_nil]
  · rw [Append_b c t [0x20] (by decide), record_space]

theorem Append_empty_value_rule_witness :
    (Append newValueChunk 0 []).b.take newValueChunk.b.length = newValueChunk.b ∧
    2 ≤ ((Append newValueChunk 0 []).b.drop newValueChunk.b.length).length ∧
    ((Append newValueChunk 0 []).b.drop newValueChunk.b.length).head? ≠ some 0 ∧
    (ReadUvarint (NewReader ((Append newValueChunk 0 []).b.drop newValueChunk.b.length ++
      [5]))).2.1 = none ∧
    1 ≤ (ReadUvarint (NewReader ((Append newValueChunk 0 []).b.drop newValueChunk.b.length ++
      [5]))).1 ∧
    (Append newValueChunk 0 []).b = newValueChunk.b ++ [1, 0x20] ∧
    (Append newValueChunk 0 [0x20]).b = newValueChunk.b ++ [1, 0x20] :=
  Append_empty_value_rule newValueChunk 0 [] [5] (by decide)

/-- C19. Length prefix: `Append` writes, ahead of the framed value, the slice
`lengthPrefix` of its length; for a length `L` below `2 ^ 64` that slice is the
base-128 continuation encoding of `L`: 1 to 10 bytes, the high bit set on every
byte but the last and clear on the last, the seven-bit groups giving `L` least
significant first, the single byte `L` when `L < 128`; and `binary.ReadUvarint`
on the slice followed by any bytes returns `L` with no error, having consumed
exactly the slice. -/
theorem lengthPrefix_encoding (c : valueChunk) (t : Int) (v rest : List Byte) (L : Nat)
    (hL : L < 2 ^ 64) :
    (Append c t v).b = (c.b ++ lengthPrefix (framed v).length) ++ framed v ∧
    lengthPrefix L = uvarint L ∧
    1 ≤ (lengthPrefix L).length ∧ (lengthPrefix L).length ≤ 10 ∧
    (∀ b ∈ (lengthPrefix L).dropLast, 128 ≤ b.val) ∧
    (∀ b ∈ (lengthPrefix L).getLast?, b.val < 128) ∧
    varintValue (lengthPrefix L) = L ∧
    (L < 128 → lengthPrefix L = [byte L] ∧ (byte L).val = L) ∧
    ReadUvarint (NewReader (lengthPrefix L ++ rest)) =
      (L, none, { s := lengthPrefix L ++ rest, i := (lengthPrefix L).length }) := by
  have he := lengthPrefix_eq_uvarint L hL
  obtain ⟨init, last, hsplit, hinit, hlast, -, -, -⟩ := uvarint_shape 9 L (by simpa using hL)
  have hru := ReadUvarint_wellFormed (NewReader (uvarint L ++ rest)) (uvarint L) rest
    (by simp [Reader.unread, NewReader]) (uvarint_wellFormed L hL)
  rw [varintValue_uvarint L hL] at hru
  rw [he]
  refine ⟨Append_b_lengthPrefix c t v, rfl, uvarint_length_pos L, uvarint_length_le_ten L hL,
    ?_, ?_, varintValue_uvarint L hL, fun hs => ⟨uvarint_small L hs, byte_val_of_lt L (by omega)⟩,
    ?_⟩
  · rw [hsplit, List.dropLast_concat]
    exact hinit
  · rw [hsplit, List.getLast?_concat]
    intro b hb
    simp only [Option.mem_def, Option.some.injEq] at hb
    rw [← hb]
    exact hlast
  · rw [hru]
    simp [NewReader]

theorem lengthPrefix_encoding_witness :
    (Append newValueChunk 0 [0x78]).b =
      (newValueChunk.b ++ lengthPrefix (framed [0x78]).length) ++ framed [0x78] ∧
    lengthPrefix 300 = uvarint 300 ∧
    1 ≤ (lengthPrefix 300).length ∧ (lengthPrefix 300).length ≤ 10 ∧
    (∀ b ∈ (lengthPrefix 300).dropLast, 128 ≤ b.val) ∧
    (∀ b ∈ (lengthPrefix 300).getLast?, b.val < 128) ∧
    varintValue (lengthPrefix 300) = 300 ∧
    (300 < 128 → lengthPrefix 300 = [byte 300] ∧ (byte 300).val = 300) ∧
    ReadUvarint (NewReader (lengthPrefix 300 ++ [7])) =
      (300, none, { s := lengthPrefix 300 ++ [7], i := (lengthPrefix 300).length }) :=
  lengthPrefix_encoding newValueChunk 0 [0x78] [7] 300 (by decide)

/-- C20. The count decides how much is read: over the buffer `Append` builds for
`vs`, followed by any bytes `extra`, an iterator with sample count `k` (at most
the number of values, below 65536) yields the first `k` values, each single
byte `0x20` turned into the empty value, then `Next` returns false with `Err()`
nil, and the read position rests at the end of the `k`-th record. -/
theorem count_decides_reading (codec : Codec) (vs : List (List Byte)) (extra : List Byte)
    (k fuel : Nat) (hk : k ≤ vs.length) (hk16 : k < 2 ^ 16)
    (hv : ∀ v ∈ vs, v.length ≤ maxAlloc) (hfuel : k < fuel) :
    (iterate codec
      { compressed := [], b := (appendAll newValueChunk vs).b ++ extra, num := k } fuel).1 =
      (vs.take k).map delivered ∧
    (iterate codec
      { compressed := [], b := (appendAll newValueChunk vs).b ++ extra, num := k } fuel).2.1 =
      some (Result.ret false) ∧
    (iterate codec
      { compressed := [], b := (appendAll newValueChunk vs).b ++ extra, num := k }
      fuel).2.2.Err = none ∧
    (iterate codec
      { compressed := [], b := (appendAll newValueChunk vs).b ++ extra, num := k }
      fuel).2.2.br.i = (appendAll newValueChunk (vs.take k)).b.length := by
  have hv64 : ∀ v ∈ vs, v.length < 2 ^ 64 := fun v h =>
    Nat.lt_of_le_of_lt (hv v h) (by decide)
  have hb : (appendAll newValueChunk vs).b = records vs := by
    rw [appendAll_b vs _ hv64]; rfl
  have hbk : (appendAll newValueChunk (vs.take k)).b = records (vs.take k) := by
    rw [appendAll_b _ _ (fun v h => hv64 v (List.mem_of_mem_take h))]; rfl
  have hsplit : records vs = records (vs.take k) ++ records (vs.drop k) := by
    rw [← records_append, List.take_append_drop]
  have hlen : (vs.take k).length = k := by
    rw [List.length_take]; omega
  unfold iterate
  rw [Iterator_nil_of_uncompressed codec _ rfl, hb, hbk]
  obtain ⟨itEnd, hd, herr, -, -, hbr⟩ := drain_records (vs.take k)
    { br := NewReader (records vs ++ extra), numTotal := k, err := none, v := [], numRead := 0 }
    (records (vs.drop k) ++ extra) fuel rfl
    (by simp [Reader.unread, NewReader, hsplit])
    (by simp [hlen]) hk16 (fun v h => hv v (List.mem_of_mem_take h)) (by rw [hlen]; exact hfuel)
  rw [hd]
  refine ⟨rfl, rfl, herr, ?_⟩
  show itEnd.br.i = _
  rw [hbr]
  simp [NewReader]

theorem count_decides_reading_witness :
    (iterate idCodec
      { compressed := [],
        b := (appendAll newValueChunk [[0x78], [], [0x20, 0x21]]).b ++ [0xff, 0xff], num := 2 }
      3).1 = (List.take 2 [[0x78], [], [0x20, 0x21]]).map delivered ∧
    (iterate idCodec
      { compressed := [],
        b := (appendAll newValueChunk [[0x78], [], [0x20, 0x21]]).b ++ [0xff, 0xff], num := 2 }
      3).2.1 = some (Result.ret false) ∧
    (iterate idCodec
      { compressed := [],
        b := (appendAll newValueChunk [[0x78], [], [0x20, 0x21]]).b ++ [0xff, 0xff], num := 2 }
      3).2.2.Err = none ∧
    (iterate idCodec
      { compressed := [],
        b := (appendAll newValueChunk [[0x78], [], [0x20, 0x21]]).b ++ [0xff, 0xff], num := 2 }
      3).2.2.br.i = (appendAll newValueChunk (List.take 2 [[0x78], [], [0x20, 0x21]])).b.length :=
  count_decides_reading idCodec [[0x78], [], [0x20, 0x21]] [0xff, 0xff] 2 3 (by decide)
    (by decide) (by decide) (by decide)

end chunkenc
